import Mathlib

/-!
Verification development for `scripts/generate-icon.py` of the
FocusriteVolumeControl repository.

The script has three parts, each embedded below:

* `create_png` — a minimal PNG encoder (signature, IHDR, one IDAT, IEND).
  Byte strings are embedded as `List ℕ` (each entry a byte value).
  `zlib.compress` / the matching decompressor are external library
  functions and are abstracted as function parameters; `zlib.crc32` is
  implemented concretely (the standard reflected CRC-32 algorithm, which
  is what zlib computes).
* `draw_icon` — a per-pixel procedural rasterizer.  Python floats are
  modeled as exact real numbers, Python `int(...)` as truncation toward
  zero (`pyInt`), Python `%` on floats as `pyMod`, and `math.atan2` by
  the standard piecewise definition `atan2`.
* `main` — the driver; its file-system / subprocess effects are modeled
  as the pure dispatch decision it makes per size variant, and the
  manifest it serializes is modeled as the record it builds.
-/

namespace FocusriteIcon

/-! ### PNG encoder (`create_png`, generate-icon.py lines 35-62) -/

/-- `struct.pack(">I", n)`: big-endian 4-byte encoding (valid for `n < 2^32`). -/
def be32 (n : ℕ) : List ℕ :=
  [n / 16777216 % 256, n / 65536 % 256, n / 256 % 256, n % 256]

/-- One bit step of the reflected CRC-32 with polynomial 0xEDB88320. -/
def crcStep (c : ℕ) : ℕ :=
  if c % 2 = 1 then (c / 2) ^^^ 0xEDB88320 else c / 2

/-- Iterate `crcStep`. -/
def crcRounds : ℕ → ℕ → ℕ
  | 0, c => c
  | n + 1, c => crcRounds n (crcStep c)

/-- Fold one byte into a CRC-32 accumulator. -/
def crcByte (c b : ℕ) : ℕ := crcRounds 8 (c ^^^ b)

/-- `zlib.crc32(data) & 0xFFFFFFFF`: the standard CRC-32 of a byte string. -/
def crc32 (data : List ℕ) : ℕ :=
  (data.foldl crcByte 0xFFFFFFFF) ^^^ 0xFFFFFFFF

/-- `make_chunk` (lines 37-39): `chunk = chunk_type + data`, then
length, chunk, CRC over `chunk`. -/
def make_chunk (chunkType data : List ℕ) : List ℕ :=
  be32 data.length ++ ((chunkType ++ data) ++ be32 (crc32 (chunkType ++ data)))

/-- `b'\x89PNG\r\n\x1a\n'` (line 42). -/
def pngSignature : List ℕ := [137, 80, 78, 71, 13, 10, 26, 10]

/-- ASCII bytes of `b'IHDR'`. -/
def typeIHDR : List ℕ := [73, 72, 68, 82]

/-- ASCII bytes of `b'IDAT'`. -/
def typeIDAT : List ℕ := [73, 68, 65, 84]

/-- ASCII bytes of `b'IEND'`. -/
def typeIEND : List ℕ := [73, 69, 78, 68]

/-- `struct.pack(">IIBBBBB", width, height, 8, 6, 0, 0, 0)` (line 45):
8-bit depth, color type 6 (RGBA), compression 0, filter 0, interlace 0. -/
def ihdrData (width height : ℕ) : List ℕ :=
  be32 width ++ be32 height ++ [8, 6, 0, 0, 0]

/-- The filtered scanline stream (lines 49-54): for each row a zero filter
byte, then for each pixel the slice `pixels[idx:idx+4]` with
`idx = (y*width + x)*4`.  Python list slicing is `drop` + `take`, and
silently truncates at the end of the list. -/
def rawScanlines (width height : ℕ) (pixels : List ℕ) : List ℕ :=
  (List.range height).flatMap fun y =>
    0 :: (List.range width).flatMap fun x => (pixels.drop ((y * width + x) * 4)).take 4

/-- `create_png` (lines 35-62).  `compress` stands for
`zlib.compress(·, 9)`, an external zlib routine. -/
def create_png (compress : List ℕ → List ℕ) (width height : ℕ) (pixels : List ℕ) :
    List ℕ :=
  pngSignature ++ make_chunk typeIHDR (ihdrData width height)
    ++ make_chunk typeIDAT (compress (rawScanlines width height pixels))
    ++ make_chunk typeIEND []

/-! ### A standard PNG decoder (model), used to state the round-trip claim. -/

/-- Big-endian read of a byte list (inverse of `be32` on 4-byte lists). -/
def readBe32 (l : List ℕ) : ℕ := l.foldl (fun acc b => acc * 256 + b) 0

/-- Parse a byte stream into a list of `(type, data)` chunks, checking the
stored CRC-32 of each chunk, exactly as a standard PNG reader frames
chunks: 4-byte big-endian data length, 4-byte type, data, 4-byte CRC. -/
def parseChunks (bs : List ℕ) : Option (List (List ℕ × List ℕ)) :=
  if hbs : bs = [] then some []
  else
    let len := readBe32 (bs.take 4)
    if hlen : 12 + len ≤ bs.length then
      let ctype := (bs.drop 4).take 4
      let data := (bs.drop 8).take len
      if (bs.drop (8 + len)).take 4 = be32 (crc32 (ctype ++ data)) then
        (parseChunks (bs.drop (12 + len))).map fun rest => (ctype, data) :: rest
      else none
    else none
  termination_by bs.length
  decreasing_by
    simp only [List.length_drop]
    omega

/-- Un-filter the decompressed IDAT stream: each of the `height` rows must
begin with filter-type byte 0, followed by `4*width` raw RGBA bytes. -/
def decodeRows (width : ℕ) : ℕ → List ℕ → Option (List ℕ)
  | 0, raw => if raw = [] then some [] else none
  | _ + 1, [] => none
  | h + 1, b :: rest =>
      if b = 0 ∧ 4 * width ≤ rest.length then
        (decodeRows width h (rest.drop (4 * width))).map fun tl =>
          rest.take (4 * width) ++ tl
      else none

/-- Concatenated data of all IDAT chunks. -/
def idatPayload (chunks : List (List ℕ × List ℕ)) : List ℕ :=
  (chunks.filter fun c => decide (c.1 = typeIDAT)).flatMap Prod.snd

/-- Number of IDAT chunks in a parsed byte stream. -/
def idatChunkCount (bs : List ℕ) : Option ℕ :=
  (parseChunks bs).map fun cs => (cs.filter fun c => decide (c.1 = typeIDAT)).length

/-- A standard PNG decoder (model): checks the signature, parses and
CRC-checks the chunks, reads width/height and the RGBA format from IHDR,
inflates the concatenated IDAT payload with the supplied `decompress`,
and un-filters the scanlines. -/
def png_decode (decompress : List ℕ → List ℕ) (bs : List ℕ) : Option (List ℕ) :=
  if bs.take 8 = pngSignature then
    match parseChunks (bs.drop 8) with
    | some ((t1, ihdr) :: rest) =>
        if t1 = typeIHDR ∧ ihdr.length = 13 ∧ ihdr.drop 8 = [8, 6, 0, 0, 0] then
          decodeRows (readBe32 (ihdr.take 4)) (readBe32 ((ihdr.drop 4).take 4))
            (decompress (idatPayload rest))
        else none
    | _ => none
  else none

/-! ### Driver and manifest (`main`, generate-icon.py lines 229-287) -/

/-- `ICON_SIZES` (lines 19-30): `(base, scale, filename)` per variant. -/
def ICON_SIZES : List (ℕ × ℕ × String) :=
  [(16, 1, "icon_16x16.png"),
   (16, 2, "icon_16x16@2x.png"),
   (32, 1, "icon_32x32.png"),
   (32, 2, "icon_32x32@2x.png"),
   (128, 1, "icon_128x128.png"),
   (128, 2, "icon_128x128@2x.png"),
   (256, 1, "icon_256x256.png"),
   (256, 2, "icon_256x256@2x.png"),
   (512, 1, "icon_512x512.png"),
   (512, 2, "icon_512x512@2x.png")]

/-- `MASTER_SIZE` (line 32). -/
def MASTER_SIZE : ℕ := 1024

/-- The filename the 1024px master render is written to before the loop
(line 235). -/
def masterFilename : String := "icon_512x512@2x.png"

/-- What the driver loop does for one variant of pixel size `px`:
skip it (the master file already written under that name is reused),
rasterize it fresh at `px`, or produce it by invoking the external
`sips` resampler on the master PNG file. -/
inductive DriverAction where
  | reuseMaster : DriverAction
  | rasterize : ℕ → DriverAction
  | sipsResize : ℕ → DriverAction
  deriving DecidableEq

/-- The branch taken by the loop body (lines 242-263):
`if px == MASTER_SIZE: continue`, `if px >= 512: draw_icon(px)`,
otherwise `sips` against the master file. -/
def dispatch (px : ℕ) : DriverAction :=
  if px = MASTER_SIZE then .reuseMaster
  else if 512 ≤ px then .rasterize px
  else .sipsResize px

/-- The full plan of the driver loop, in generation order. -/
def driverPlan : List (String × DriverAction) :=
  ICON_SIZES.map fun v => (v.2.2, dispatch (v.1 * v.2.1))

/-- One entry of the `Contents.json` `images` array (lines 273-278). -/
structure ManifestEntry where
  filename : String
  idiom : String
  scale : String
  size : String
  deriving DecidableEq

/-- The `info` record of `Contents.json` (line 270). -/
structure ManifestInfo where
  author : String
  version : ℕ
  deriving DecidableEq

/-- The `images` array built in the loop at lines 272-279. -/
def contentsImages : List ManifestEntry :=
  ICON_SIZES.map fun v =>
    { filename := v.2.2
      idiom := "mac"
      scale := toString v.2.1 ++ "x"
      size := toString v.1 ++ "x" ++ toString v.1 }

/-- `contents["info"]` (line 270). -/
def contentsInfo : ManifestInfo := { author := "xcode", version := 1 }

/-! ### Rasterizer (`draw_icon`, generate-icon.py lines 69-226)

Python floats are modeled as exact reals; every comparison of reals is
classically decidable, so this section is noncomputable. -/

noncomputable section

open scoped Classical

open Real

/-- Python `int(x)`: truncation toward zero. -/
def pyInt (x : ℝ) : ℤ := if 0 ≤ x then ⌊x⌋ else -⌊-x⌋

/-- Python `a % b` on floats (for `b > 0`): `a - b*floor(a/b)`. -/
def pyMod (a b : ℝ) : ℝ := a - b * ⌊a / b⌋

/-- `math.atan2(y, x)`, by its standard piecewise definition. -/
def atan2 (y x : ℝ) : ℝ :=
  if 0 < x then arctan (y / x)
  else if x < 0 then
    (if 0 ≤ y then arctan (y / x) + π else arctan (y / x) - π)
  else
    (if 0 < y then π / 2 else if y < 0 then -(π / 2) else 0)

/-- `lerp` (lines 65-66). -/
def lerp (a b t : ℝ) : ℝ := a + (b - a) * t

/-- Channel-wise `int(lerp(...))` applied to a color triple, as done for
every gradient in `draw_icon`. -/
def lerpColor (c1 c2 : ℤ × ℤ × ℤ) (t : ℝ) : ℤ × ℤ × ℤ :=
  (pyInt (lerp c1.1 c2.1 t), pyInt (lerp c1.2.1 c2.2.1 t), pyInt (lerp c1.2.2 c2.2.2 t))

/-- `bg_dark` (line 78). -/
def bg_dark : ℤ × ℤ × ℤ := (28, 28, 30)

/-- `bg_mid` (line 79). -/
def bg_mid : ℤ × ℤ × ℤ := (44, 44, 46)

/-- `accent` (line 80). -/
def accent : ℤ × ℤ × ℤ := (220, 60, 60)

/-- `accent_light` (line 81). -/
def accent_light : ℤ × ℤ × ℤ := (255, 100, 80)

/-- `knob_dark` (line 82). -/
def knob_dark : ℤ × ℤ × ℤ := (58, 58, 62)

/-- `knob_light` (line 83). -/
def knob_light : ℤ × ℤ × ℤ := (90, 90, 96)

/-- `tick_color` (line 84). -/
def tick_color : ℤ × ℤ × ℤ := (160, 160, 166)

/-- `in_rounded_rect` (lines 86-92). -/
def in_rounded_rect (x y cx cy hw hh cr : ℝ) : Prop :=
  if |x - cx| - (hw - cr) ≤ 0 ∨ |y - cy| - (hh - cr) ≤ 0 then
    |x - cx| ≤ hw ∧ |y - cy| ≤ hh
  else
    (|x - cx| - (hw - cr)) * (|x - cx| - (hw - cr))
      + (|y - cy| - (hh - cr)) * (|y - cy| - (hh - cr)) ≤ cr * cr

/-- `dist` (lines 94-95). -/
def dist (x1 y1 x2 y2 : ℝ) : ℝ := Real.sqrt ((x1 - x2) ^ 2 + (y1 - y2) ^ 2)

/-- `center = size / 2.0` (line 73). -/
def center (size : ℕ) : ℝ := (size : ℝ) / 2

/-- `radius = size * 0.44` (line 74). -/
def rectRadius (size : ℕ) : ℝ := (size : ℝ) * 0.44

/-- `corner_r = size * 0.185` (line 75). -/
def corner_r (size : ℕ) : ℝ := (size : ℝ) * 0.185

/-- `knob_cx = center` (line 98). -/
def knob_cx (size : ℕ) : ℝ := center size

/-- `knob_cy = center + size * 0.02` (line 99). -/
def knob_cy (size : ℕ) : ℝ := center size + (size : ℝ) * 0.02

/-- `knob_r = size * 0.25` (line 100). -/
def knob_r (size : ℕ) : ℝ := (size : ℝ) * 0.25

/-- The clip test applied by `draw_icon` at pixel `(x, y)` (line 108). -/
def inClip (size x y : ℕ) : Prop :=
  in_rounded_rect x y (center size) (center size) (rectRadius size) (rectRadius size)
    (corner_r size)

/-- Distance of pixel `(x, y)` from the knob center (line 118). -/
def pixelD (size x y : ℕ) : ℝ := dist x y (knob_cx size) (knob_cy size)

/-- `angle = math.atan2(y - knob_cy, x - knob_cx)` (lines 136, 151). -/
def pixelAngle (size x y : ℕ) : ℝ :=
  atan2 ((y : ℝ) - knob_cy size) ((x : ℝ) - knob_cx size)

/-- The wrap-around applied to an absolute angle difference
(lines 139-140 and 171-172): if above π, use `2π` minus it. -/
def wrapDiff (a : ℝ) : ℝ := if a > π then 2 * π - a else a

/-- `indicator_angle = -math.pi * 0.33` (line 137). -/
def indicator_angle : ℝ := -π * 0.33

/-- The threshold `math.atan2(line_width, d) if d > 0 else math.pi`
(lines 142-143). -/
def indicatorThreshold (size x y : ℕ) : ℝ :=
  if pixelD size x y > 0 then atan2 ((size : ℝ) * 0.025) (pixelD size x y) else π

/-- The guard of the indicator assignment (line 144). -/
def indicatorHit (size x y : ℕ) : Prop :=
  wrapDiff |pixelAngle size x y - indicator_angle| < indicatorThreshold size x y
    ∧ pixelD size x y > knob_r size * 0.3 ∧ pixelD size x y < knob_r size * 0.9

/-- The knob stage (lines 120-145): ring gradient, body gradient, and the
indicator wedge; leaves the incoming color untouched off the knob. -/
def knobStage (size x y : ℕ) (c : ℤ × ℤ × ℤ) : ℤ × ℤ × ℤ :=
  let d := pixelD size x y
  let knobOuter := knob_r size + (size : ℝ) * 0.025
  if d ≤ knobOuter ∧ d > knob_r size then
    lerpColor knob_light bg_dark ((d - knob_r size) / (knobOuter - knob_r size))
  else if d ≤ knob_r size then
    (if indicatorHit size x y then accent
     else lerpColor knob_light knob_dark (d / knob_r size * 0.7))
  else c

/-- `dead_start = math.pi * 0.38` (line 158). -/
def dead_start : ℝ := π * 0.38

/-- `dead_end = math.pi * 0.62` (line 159). -/
def dead_end : ℝ := π * 0.62

/-- `num_ticks = 11` (line 164). -/
def num_ticks : ℕ := 11

/-- `arc_start = dead_end` (line 165). -/
def arc_start : ℝ := dead_end

/-- `arc_range = 2*pi - (dead_end - dead_start)` (line 166). -/
def arc_range : ℝ := 2 * π - (dead_end - dead_start)

/-- `tick_angle` before the `% (2*pi)` (line 168). -/
def tickAngleRaw (i : ℕ) : ℝ := arc_start + arc_range * (i : ℝ) / ((num_ticks : ℝ) - 1)

/-- `tick_angle` (lines 168-169). -/
def tickAngle (i : ℕ) : ℝ := pyMod (tickAngleRaw i) (2 * π)

/-- The color tick `i` is drawn in (lines 176-179): the first 8 in the
accent red, the rest in the neutral gray. -/
def tickColorOf (i : ℕ) : ℤ × ℤ × ℤ := if i < 8 then accent else tick_color

/-- `norm_angle = angle % (2*pi)` (line 155). -/
def normAngle (size x y : ℕ) : ℝ := pyMod (pixelAngle size x y) (2 * π)

/-- `in_dead_zone` (line 160). -/
def inDeadZone (size x y : ℕ) : Prop :=
  dead_start ≤ normAngle size x y ∧ normAngle size x y ≤ dead_end

/-- The tick ring annulus test (lines 148-150). -/
def inTickRing (size x y : ℕ) : Prop :=
  pixelD size x y ≥ knob_r size + (size : ℝ) * 0.06
    ∧ pixelD size x y ≤ knob_r size + (size : ℝ) * 0.10

/-- `tick_width = math.atan2(size*0.008, d) if d > 0 else 0` (line 173). -/
def tickWidth (size x y : ℕ) : ℝ :=
  if pixelD size x y > 0 then atan2 ((size : ℝ) * 0.008) (pixelD size x y) else 0

/-- The guard under which tick `i` recolors the pixel (lines 170-174). -/
def tickHit (size x y i : ℕ) : Prop :=
  wrapDiff |normAngle size x y - tickAngle i| < tickWidth size x y

/-- The tick stage (lines 147-179): inside the tick annulus and outside
the dead zone, each of the 11 ticks in turn may overwrite the color. -/
def tickStage (size x y : ℕ) (c : ℤ × ℤ × ℤ) : ℤ × ℤ × ℤ :=
  if inTickRing size x y ∧ ¬ inDeadZone size x y then
    (List.range num_ticks).foldl
      (fun acc i => if tickHit size x y i then tickColorOf i else acc) c
  else c

/-- The "F" glyph stage (lines 181-196). -/
def glyphStage (size x y : ℕ) (c : ℤ × ℤ × ℤ) : ℤ × ℤ × ℤ :=
  let fx := center size
  let fy := center size - knob_r size - (size : ℝ) * 0.12
  let fSize := (size : ℝ) * 0.045
  let dxf := |(x : ℝ) - fx|
  let dyf := (y : ℝ) - (fy - fSize)
  if dxf < fSize * 0.8 ∧ 0 ≤ dyf ∧ dyf ≤ fSize * 2 then
    if dxf < fSize * 0.2 then accent_light
    else if dyf < fSize * 0.3 then accent_light
    else if fSize * 0.85 < dyf ∧ dyf < fSize * 1.15 ∧ dxf < fSize * 0.55 then
      accent_light
    else c
  else c

/-- The background gradient color (lines 113-116). -/
def bgColor (size y : ℕ) : ℤ × ℤ × ℤ := lerpColor bg_mid bg_dark ((y : ℝ) / (size : ℝ))

/-- The full color pipeline for a clipped-in pixel, before clamping. -/
def colorRGB (size x y : ℕ) : ℤ × ℤ × ℤ :=
  glyphStage size x y (tickStage size x y (knobStage size x y (bgColor size y)))

/-- `edge_dist` (lines 198-211). -/
def edgeDist (size x y : ℕ) : ℝ :=
  let ex := |(x : ℝ) - center size| - (rectRadius size - corner_r size)
  let ey := |(y : ℝ) - center size| - (rectRadius size - corner_r size)
  if ex > 0 ∧ ey > 0 then Real.sqrt (ex * ex + ey * ey) - corner_r size
  else if ex > 0 then
    (let e := ex - (rectRadius size - |(y : ℝ) - center size|)
     if e < -1 then -2 else e)
  else if ey > 0 then
    (let e := ey - (rectRadius size - |(x : ℝ) - center size|)
     if e < -1 then -2 else e)
  else 0

/-- `alpha` (lines 213-215). -/
def alphaOf (size x y : ℕ) : ℤ :=
  if edgeDist size x y > -1 ∧ edgeDist size x y ≤ 0 then
    pyInt (255 * (1 + edgeDist size x y))
  else 255

/-- Clamp a channel to `[0, 255]` (lines 217-219). -/
def clamp255 (v : ℤ) : ℤ := max 0 (min 255 v)

/-- The four bytes stored for pixel `(x, y)` (lines 103-224): all zero
outside the clip mask, otherwise the clamped color and the computed alpha. -/
def pixelRGBA (size x y : ℕ) : ℤ × ℤ × ℤ × ℤ :=
  if inClip size x y then
    (clamp255 (colorRGB size x y).1, clamp255 (colorRGB size x y).2.1,
     clamp255 (colorRGB size x y).2.2, alphaOf size x y)
  else (0, 0, 0, 0)

/-- The 4-byte list for one pixel. -/
def pixelList (size x y : ℕ) : List ℤ :=
  [(pixelRGBA size x y).1, (pixelRGBA size x y).2.1,
   (pixelRGBA size x y).2.2.1, (pixelRGBA size x y).2.2.2]

/-- `draw_icon` (lines 69-226): the row-major RGBA buffer.  The Python
code preallocates `[0]*(size*size*4)` and writes each pixel's 4 slots
exactly once, which is the same buffer as this row-major flattening. -/
def draw_icon (size : ℕ) : List ℤ :=
  (List.range size).flatMap fun y =>
    (List.range size).flatMap fun x => pixelList size x y

/-- `bytes(...)` conversion of a pixel value list: succeeds exactly when
every value is an integer in `[0, 256)`. -/
def toBytes (l : List ℤ) : Option (List ℕ) :=
  l.mapM fun v => if 0 ≤ v ∧ v < 256 then some v.toNat else none

/-- The signed distance to the rounded-rect mask boundary as the spec
describes it: corner-region Euclidean distance minus the corner radius;
otherwise the linear distance to the nearest edge. -/
def specSignedDist (size x y : ℕ) : ℝ :=
  let ex := |(x : ℝ) - center size| - (rectRadius size - corner_r size)
  let ey := |(y : ℝ) - center size| - (rectRadius size - corner_r size)
  if ex > 0 ∧ ey > 0 then Real.sqrt (ex ^ 2 + ey ^ 2) - corner_r size
  else max (|(x : ℝ) - center size| - rectRadius size)
    (|(y : ℝ) - center size| - rectRadius size)

/-- Shortest angular distance between two angles, as the spec phrases the
indicator and tick tests (valid for `|a - b| ≤ 2π`). -/
def angularDist (a b : ℝ) : ℝ := min |a - b| (2 * π - |a - b|)

/-- The byte buffer `main` passes to `create_png` for a 16px render:
`draw_icon(16)` converted by `bytes(...)`. -/
def icon16Bytes : List ℕ := (toBytes (draw_icon 16)).getD []

end

/-! ### Lemmas about the PNG encoder and decoder -/

theorem be32_length (n : ℕ) : (be32 n).length = 4 := rfl

theorem readBe32_be32 (n : ℕ) (h : n < 4294967296) : readBe32 (be32 n) = n := by
  simp only [be32, readBe32, List.foldl]
  omega

theorem make_chunk_length (t d : List ℕ) :
    (make_chunk t d).length = t.length + d.length + 8 := by
  simp [make_chunk, be32]
  omega

/-- Key framing lemma: the chunk parser peels off one well-formed chunk. -/
theorem parseChunks_chunk (t d rest : List ℕ) (ht : t.length = 4)
    (hd : d.length < 4294967296) :
    parseChunks (make_chunk t d ++ rest)
      = (parseChunks rest).map fun cs => (t, d) :: cs := by
  have hassoc : make_chunk t d ++ rest
      = be32 d.length ++ (t ++ (d ++ (be32 (crc32 (t ++ d)) ++ rest))) := by
    simp [make_chunk, List.append_assoc]
  have hlen : (make_chunk t d ++ rest).length = 12 + d.length + rest.length := by
    simp [make_chunk, be32, ht]
    omega
  have hne : make_chunk t d ++ rest ≠ [] := by
    intro hnil
    have := congrArg List.length hnil
    simp [hlen] at this
  rw [parseChunks]
  rw [dif_neg hne]
  have htake4 : (make_chunk t d ++ rest).take 4 = be32 d.length := by
    rw [hassoc]
    exact List.take_left' (be32_length _)
  have hread : readBe32 ((make_chunk t d ++ rest).take 4) = d.length := by
    rw [htake4, readBe32_be32 _ hd]
  rw [hread]
  have hcond : 12 + d.length ≤ (make_chunk t d ++ rest).length := by
    rw [hlen]; omega
  rw [dif_pos hcond]
  have hdrop4 : (make_chunk t d ++ rest).drop 4
      = t ++ (d ++ (be32 (crc32 (t ++ d)) ++ rest)) := by
    rw [hassoc]
    exact List.drop_left' (be32_length _)
  have hctype : ((make_chunk t d ++ rest).drop 4).take 4 = t := by
    rw [hdrop4]
    exact List.take_left' ht
  have hdrop8 : (make_chunk t d ++ rest).drop 8
      = d ++ (be32 (crc32 (t ++ d)) ++ rest) := by
    have : make_chunk t d ++ rest
        = (be32 d.length ++ t) ++ (d ++ (be32 (crc32 (t ++ d)) ++ rest)) := by
      rw [hassoc]; simp [List.append_assoc]
    rw [this]
    exact List.drop_left' (by simp [be32, ht])
  have hdata : ((make_chunk t d ++ rest).drop 8).take d.length = d := by
    rw [hdrop8]
    exact List.take_left' rfl
  have hdropCrc : (make_chunk t d ++ rest).drop (8 + d.length)
      = be32 (crc32 (t ++ d)) ++ rest := by
    have : make_chunk t d ++ rest
        = ((be32 d.length ++ t) ++ d) ++ (be32 (crc32 (t ++ d)) ++ rest) := by
      rw [hassoc]; simp [List.append_assoc]
    rw [this]
    exact List.drop_left' (by simp [be32, ht]; omega)
  have hcrc : ((make_chunk t d ++ rest).drop (8 + d.length)).take 4
      = be32 (crc32 (t ++ d)) := by
    rw [hdropCrc]
    exact List.take_left' (be32_length _)
  rw [hctype, hdata, hcrc]
  rw [if_pos rfl]
  have hdropAll : (make_chunk t d ++ rest).drop (12 + d.length) = rest := by
    have : make_chunk t d ++ rest
        = (((be32 d.length ++ t) ++ d) ++ be32 (crc32 (t ++ d))) ++ rest := by
      rw [hassoc]; simp [List.append_assoc]
    rw [this]
    exact List.drop_left' (by simp [be32, ht]; omega)
  rw [hdropAll]

theorem parseChunks_nil : parseChunks [] = some [] := by
  rw [parseChunks]
  rfl

/-- The chunks of any `create_png` output parse to exactly the three
framed chunks, provided the compressed payload is addressable by the
4-byte length field. -/
theorem parseChunks_create_png (compress : List ℕ → List ℕ) (w h : ℕ)
    (pixels : List ℕ)
    (hc : (compress (rawScanlines w h pixels)).length < 4294967296) :
    parseChunks ((create_png compress w h pixels).drop 8)
      = some [(typeIHDR, ihdrData w h),
              (typeIDAT, compress (rawScanlines w h pixels)),
              (typeIEND, [])] := by
  have hdrop : (create_png compress w h pixels).drop 8
      = make_chunk typeIHDR (ihdrData w h)
        ++ (make_chunk typeIDAT (compress (rawScanlines w h pixels))
            ++ (make_chunk typeIEND [] ++ [])) := by
    have : create_png compress w h pixels
        = pngSignature ++ (make_chunk typeIHDR (ihdrData w h)
            ++ (make_chunk typeIDAT (compress (rawScanlines w h pixels))
              ++ (make_chunk typeIEND [] ++ []))) := by
      simp [create_png, List.append_assoc]
    rw [this]
    exact List.drop_left' rfl
  rw [hdrop]
  rw [parseChunks_chunk typeIHDR (ihdrData w h) _ rfl (by simp [ihdrData, be32])]
  rw [parseChunks_chunk typeIDAT (compress (rawScanlines w h pixels)) _ rfl hc]
  rw [parseChunks_chunk typeIEND [] _ rfl (by simp)]
  rw [parseChunks_nil]
  rfl

/-- Row 0 of the scanline stream is a prefix of the pixel buffer. -/
theorem row_flatMap_take (w : ℕ) :
    ∀ pixels : List ℕ, 4 * w ≤ pixels.length →
      ((List.range w).flatMap fun x => (pixels.drop (x * 4)).take 4)
        = pixels.take (4 * w) := by
  induction w with
  | zero => intro pixels _; simp
  | succ w ih =>
    intro pixels hlen
    rw [List.range_succ_eq_map]
    rw [List.flatMap_cons, List.flatMap_map]
    have hfun : (fun a : ℕ => (pixels.drop (a.succ * 4)).take 4)
        = fun x => ((pixels.drop 4).drop (x * 4)).take 4 := by
      funext x
      rw [List.drop_drop]
      congr 2
      omega
    rw [hfun, ih (pixels.drop 4) (by simp; omega)]
    simp only [Nat.zero_mul, List.drop_zero]
    rw [← List.take_add]
    congr 1
    ring

/-- Peeling one row off the scanline stream. -/
theorem rawScanlines_succ (w h : ℕ) (pixels : List ℕ) :
    rawScanlines w (h + 1) pixels
      = (0 :: (List.range w).flatMap fun x => (pixels.drop (x * 4)).take 4)
        ++ rawScanlines w h (pixels.drop (4 * w)) := by
  unfold rawScanlines
  rw [List.range_succ_eq_map]
  rw [List.flatMap_cons, List.flatMap_map]
  congr 1
  · congr 1
    simp only [Nat.zero_mul, Nat.zero_add]
  · congr 1
    funext y
    have hx : ∀ x : ℕ, (pixels.drop (4 * w)).drop ((y * w + x) * 4)
        = pixels.drop ((y.succ * w + x) * 4) := by
      intro x
      rw [List.drop_drop]
      congr 1
      simp only [Nat.succ_eq_add_one]
      ring
    simp only [hx]

/-- Length of one pixel slice. -/
theorem slice_length (pixels : List ℕ) (i : ℕ) :
    ((pixels.drop i).take 4).length = min 4 (pixels.length - i) := by
  simp

/-- The total number of pixel bytes the encoder reads. -/
theorem row_flatMap_length (w : ℕ) :
    ∀ pixels : List ℕ,
      ((List.range w).flatMap fun x => (pixels.drop (x * 4)).take 4).length
        = min (4 * w) pixels.length := by
  induction w with
  | zero => intro pixels; simp
  | succ w ih =>
    intro pixels
    rw [List.range_succ_eq_map]
    rw [List.flatMap_cons, List.flatMap_map]
    have hfun : (fun a : ℕ => (pixels.drop (a.succ * 4)).take 4)
        = fun x => ((pixels.drop 4).drop (x * 4)).take 4 := by
      funext x
      rw [List.drop_drop]
      congr 2
      omega
    rw [hfun]
    simp only [List.length_append, ih (pixels.drop 4)]
    simp
    omega

/-- Exact length of the filtered scanline stream, for any pixel buffer
(even a short one, thanks to Python's truncating slices). -/
theorem rawScanlines_length (w : ℕ) :
    ∀ (h : ℕ) (pixels : List ℕ),
      (rawScanlines w h pixels).length = h + min (4 * w * h) pixels.length := by
  intro h
  induction h with
  | zero => intro pixels; simp [rawScanlines]
  | succ h ih =>
    intro pixels
    have e : 4 * w * (h + 1) = 4 * w * h + 4 * w := by ring
    rw [rawScanlines_succ]
    simp only [List.length_append, List.length_cons, row_flatMap_length, ih]
    simp only [List.length_drop]
    omega

/-- The decoder's un-filtering inverts the encoder's filtering whenever the
buffer has exactly `4*w*h` entries. -/
theorem decodeRows_rawScanlines (w : ℕ) :
    ∀ (h : ℕ) (pixels : List ℕ), pixels.length = 4 * w * h →
      decodeRows w h (rawScanlines w h pixels) = some pixels := by
  intro h
  induction h with
  | zero =>
    intro pixels hlen
    have : pixels = [] := List.eq_nil_of_length_eq_zero (by rw [hlen]; ring)
    subst this
    simp [rawScanlines, decodeRows]
  | succ h ih =>
    intro pixels hlen
    have e : 4 * w * (h + 1) = 4 * w * h + 4 * w := by ring
    rw [rawScanlines_succ]
    have hrow : ((List.range w).flatMap fun x => (pixels.drop (x * 4)).take 4)
        = pixels.take (4 * w) := row_flatMap_take w pixels (by omega)
    rw [hrow]
    rw [List.cons_append, decodeRows]
    have htlen : (pixels.take (4 * w)).length = 4 * w := by
      simp only [List.length_take]
      omega
    have hcond : (0 = 0 ∧ 4 * w ≤ (pixels.take (4 * w) ++ rawScanlines w h (pixels.drop (4 * w))).length) := by
      constructor
      · rfl
      · simp [htlen]
    rw [if_pos hcond]
    have hdropPart : (pixels.take (4 * w) ++ rawScanlines w h (pixels.drop (4 * w))).drop (4 * w)
        = rawScanlines w h (pixels.drop (4 * w)) := List.drop_left' htlen
    have htakePart : (pixels.take (4 * w) ++ rawScanlines w h (pixels.drop (4 * w))).take (4 * w)
        = pixels.take (4 * w) := List.take_left' htlen
    rw [hdropPart, htakePart]
    rw [ih (pixels.drop (4 * w)) (by simp only [List.length_drop]; omega)]
    simp

/-- With a complete buffer, the scanline stream is: per row, a zero filter
byte followed by that row's `4*w` raw bytes. -/
theorem rawScanlines_rows (w h : ℕ) (pixels : List ℕ)
    (hlen : pixels.length = w * h * 4) :
    rawScanlines w h pixels
      = (List.range h).flatMap fun y => 0 :: (pixels.drop (4 * w * y)).take (4 * w) := by
  unfold rawScanlines
  refine List.flatMap_congr ?_
  intro y hy
  have hy' : y < h := List.mem_range.mp hy
  congr 1
  have hx : ∀ x : ℕ, pixels.drop ((y * w + x) * 4)
      = (pixels.drop (4 * w * y)).drop (x * 4) := by
    intro x
    rw [List.drop_drop]
    congr 1
    ring
  simp only [hx]
  refine row_flatMap_take w (pixels.drop (4 * w * y)) ?_
  simp only [List.length_drop]
  have h1 : 4 * w * (y + 1) ≤ 4 * w * h := Nat.mul_le_mul_left (4 * w) (by omega)
  have e1 : 4 * w * (y + 1) = 4 * w * y + 4 * w := by ring
  have e2 : w * h * 4 = 4 * w * h := by ring
  omega

/-- The signature is the first 8 bytes of any `create_png` output. -/
theorem create_png_take8 (compress : List ℕ → List ℕ) (w h : ℕ) (pixels : List ℕ) :
    (create_png compress w h pixels).take 8 = pngSignature := by
  have hshape : create_png compress w h pixels
      = pngSignature ++ (make_chunk typeIHDR (ihdrData w h)
          ++ (make_chunk typeIDAT (compress (rawScanlines w h pixels))
            ++ make_chunk typeIEND [])) := by
    simp [create_png, List.append_assoc]
  rw [hshape]
  exact List.take_left' rfl

/-- `create_png` output carries exactly one IDAT chunk. -/
theorem create_png_one_idat (compress : List ℕ → List ℕ) (w h : ℕ)
    (pixels : List ℕ)
    (hc : (compress (rawScanlines w h pixels)).length < 4294967296) :
    idatChunkCount ((create_png compress w h pixels).drop 8) = some 1 := by
  rw [idatChunkCount, parseChunks_create_png compress w h pixels hc]
  simp [typeIHDR, typeIDAT, typeIEND]

/-- Decoding an encoded image recovers the pixel buffer. -/
theorem png_decode_create_png (compress decompress : List ℕ → List ℕ)
    (w h : ℕ) (pixels : List ℕ)
    (hw : w < 4294967296) (hh : h < 4294967296)
    (hlen : pixels.length = w * h * 4)
    (hc : (compress (rawScanlines w h pixels)).length < 4294967296)
    (hround : decompress (compress (rawScanlines w h pixels))
      = rawScanlines w h pixels) :
    png_decode decompress (create_png compress w h pixels) = some pixels := by
  unfold png_decode
  rw [if_pos (create_png_take8 compress w h pixels)]
  have hdrop : (create_png compress w h pixels).drop 8
      = make_chunk typeIHDR (ihdrData w h)
        ++ (make_chunk typeIDAT (compress (rawScanlines w h pixels))
          ++ (make_chunk typeIEND [] ++ [])) := by
    have hshape : create_png compress w h pixels
        = pngSignature ++ (make_chunk typeIHDR (ihdrData w h)
            ++ (make_chunk typeIDAT (compress (rawScanlines w h pixels))
              ++ (make_chunk typeIEND [] ++ []))) := by
      simp [create_png, List.append_assoc]
    rw [hshape]
    exact List.drop_left' rfl
  rw [parseChunks_create_png compress w h pixels hc]
  have hihdr13 : (ihdrData w h).length = 13 := by simp [ihdrData, be32]
  have hihdrTail : (ihdrData w h).drop 8 = [8, 6, 0, 0, 0] := by
    have : ihdrData w h = (be32 w ++ be32 h) ++ [8, 6, 0, 0, 0] := by
      simp [ihdrData, List.append_assoc]
    rw [this]
    exact List.drop_left' (by simp [be32])
  dsimp only
  rw [if_pos ⟨rfl, hihdr13, hihdrTail⟩]
  have htake4 : (ihdrData w h).take 4 = be32 w := by
    unfold ihdrData
    rw [List.append_assoc]
    exact List.take_left' (be32_length w)
  have hdrop4 : ((ihdrData w h).drop 4).take 4 = be32 h := by
    unfold ihdrData
    rw [List.append_assoc]
    rw [List.drop_left' (be32_length w)]
    exact List.take_left' (be32_length h)
  rw [htake4, hdrop4, readBe32_be32 w hw, readBe32_be32 h hh]
  have hpayload : idatPayload
      [(typeIDAT, compress (rawScanlines w h pixels)), (typeIEND, [])]
      = compress (rawScanlines w h pixels) := by
    simp [idatPayload, typeIDAT, typeIEND]
  rw [hpayload, hround]
  exact decodeRows_rawScanlines w h pixels (by rw [hlen]; ring)

/-! ### Lemmas about the rasterizer -/

theorem flatMap_length_const {α β : Type} (f : α → List β) (c : ℕ) :
    ∀ l : List α, (∀ a ∈ l, (f a).length = c) → (l.flatMap f).length = c * l.length := by
  intro l
  induction l with
  | nil => intro _; simp
  | cons a tl ih =>
    intro hf
    simp only [List.flatMap_cons, List.length_append, List.length_cons]
    rw [hf a (List.mem_cons_self a tl), ih fun b hb => hf b (List.mem_cons_of_mem a hb)]
    ring

theorem flatMap_drop_const {α β : Type} (f : α → List β) (c : ℕ) :
    ∀ (l : List α) (i : ℕ) (hf : ∀ a ∈ l, (f a).length = c) (hi : i < l.length),
      (l.flatMap f).drop (c * i) = f (l.get ⟨i, hi⟩) ++ (l.drop (i + 1)).flatMap f := by
  intro l
  induction l with
  | nil => intro i _ hi; simp at hi
  | cons a tl ih =>
    intro i hf hi
    match i with
    | 0 => simp
    | j + 1 =>
      have hstep : c * (j + 1) = c + c * j := by ring
      rw [List.flatMap_cons, hstep, ← List.drop_drop]
      rw [List.drop_left' (hf a (List.mem_cons_self a tl))]
      have hj : j < tl.length := by simp at hi; omega
      rw [ih j (fun b hb => hf b (List.mem_cons_of_mem a hb)) hj]
      rfl

theorem pixelList_length (size x y : ℕ) : (pixelList size x y).length = 4 := rfl

/-- `draw_icon(S)` has exactly `S*S*4` entries. -/
theorem draw_icon_length (size : ℕ) : (draw_icon size).length = size * size * 4 := by
  unfold draw_icon
  rw [flatMap_length_const _ (4 * size)]
  · simp; ring
  · intro y _
    rw [flatMap_length_const _ 4]
    · simp
    · intro x _
      exact pixelList_length size x y

/-- Addressing pixel `(x, y)`: the buffer from offset `(y*S + x)*4` starts
with that pixel's four bytes. -/
theorem draw_icon_drop (size x y : ℕ) (hx : x < size) (hy : y < size) :
    ∃ rest, (draw_icon size).drop ((y * size + x) * 4)
      = pixelList size x y ++ rest := by
  have hrowlen : ∀ y' ∈ List.range size,
      ((List.range size).flatMap fun x' => pixelList size x' y').length = 4 * size := by
    intro y' _
    rw [flatMap_length_const _ 4]
    · simp
    · intro x' _
      exact pixelList_length size x' y'
  have hidx : (y * size + x) * 4 = (4 * size) * y + 4 * x := by ring
  rw [hidx, ← List.drop_drop]
  unfold draw_icon
  rw [flatMap_drop_const _ (4 * size) (List.range size) y hrowlen (by simpa using hy)]
  have hget : (List.range size).get ⟨y, by simpa using hy⟩ = y := by simp
  rw [hget]
  rw [List.drop_append_eq_append_drop]
  have hxlen : 4 * x ≤ ((List.range size).flatMap fun x' => pixelList size x' y).length := by
    rw [flatMap_length_const _ 4 _ fun x' _ => pixelList_length size x' y]
    simp
    omega
  rw [flatMap_drop_const _ 4 (List.range size) x
    (fun x' _ => pixelList_length size x' y) (by simpa using hx)]
  rw [List.get_range]
  refine ⟨((List.range size).drop (x + 1)).flatMap (fun x' => pixelList size x' y)
    ++ (((List.range size).drop (y + 1)).flatMap fun y' =>
        (List.range size).flatMap fun x' => pixelList size x' y').drop
          (4 * x - ((List.range size).flatMap fun x' => pixelList size x' y).length), ?_⟩
  rw [List.append_assoc]

/-- The alpha byte of pixel `(x, y)` in the flattened buffer. -/
theorem draw_icon_alpha (size x y : ℕ) (hx : x < size) (hy : y < size) :
    (draw_icon size)[(y * size + x) * 4 + 3]? = some (pixelRGBA size x y).2.2.2 := by
  obtain ⟨rest, hdrop⟩ := draw_icon_drop size x y hx hy
  have := List.getElem?_drop (draw_icon size) ((y * size + x) * 4) 3
  rw [hdrop] at this
  rw [← this]
  rw [show pixelList size x y ++ rest
      = (pixelRGBA size x y).1 :: (pixelRGBA size x y).2.1
        :: (pixelRGBA size x y).2.2.1 :: (pixelRGBA size x y).2.2.2 :: rest from rfl]
  simp

open scoped Classical

open Real

theorem pixelRGBA_notClip (size x y : ℕ) (h : ¬ inClip size x y) :
    pixelRGBA size x y = (0, 0, 0, 0) := by
  unfold pixelRGBA
  rw [if_neg h]

theorem pixelRGBA_alpha (size x y : ℕ) :
    (pixelRGBA size x y).2.2.2 = if inClip size x y then alphaOf size x y else 0 := by
  unfold pixelRGBA
  split_ifs <;> rfl

theorem pyInt_255 : pyInt 255 = 255 := by
  unfold pyInt
  rw [if_pos (by norm_num)]
  norm_num

/-- For pixels inside the clip, the code's `edge_dist` is never positive. -/
theorem edgeDist_nonpos (size x y : ℕ) (h : inClip size x y) :
    edgeDist size x y ≤ 0 := by
  have hC : (0:ℝ) ≤ corner_r size := by
    unfold corner_r
    positivity
  unfold inClip in_rounded_rect at h
  unfold edgeDist
  dsimp only
  by_cases hxy : |(x:ℝ) - center size| - (rectRadius size - corner_r size) > 0
      ∧ |(y:ℝ) - center size| - (rectRadius size - corner_r size) > 0
  · rw [if_pos hxy]
    rw [if_neg (by push_neg; exact ⟨hxy.1, hxy.2⟩)] at h
    have hs : Real.sqrt
        ((|(x:ℝ) - center size| - (rectRadius size - corner_r size))
          * (|(x:ℝ) - center size| - (rectRadius size - corner_r size))
          + (|(y:ℝ) - center size| - (rectRadius size - corner_r size))
            * (|(y:ℝ) - center size| - (rectRadius size - corner_r size)))
        ≤ corner_r size := by
      calc Real.sqrt ((|(x:ℝ) - center size| - (rectRadius size - corner_r size))
            * (|(x:ℝ) - center size| - (rectRadius size - corner_r size))
            + (|(y:ℝ) - center size| - (rectRadius size - corner_r size))
              * (|(y:ℝ) - center size| - (rectRadius size - corner_r size)))
          ≤ Real.sqrt (corner_r size * corner_r size) := Real.sqrt_le_sqrt h
        _ = corner_r size := Real.sqrt_mul_self hC
    linarith
  · rw [if_neg hxy]
    rw [if_pos (by
      rcases not_and_or.mp hxy with h1 | h1
      · exact Or.inl (le_of_not_lt h1)
      · exact Or.inr (le_of_not_lt h1))] at h
    split_ifs with h1 h2 h3
    · norm_num
    · have hyB : |(y:ℝ) - center size| - (rectRadius size - corner_r size) ≤ 0 := by
        rcases not_and_or.mp hxy with hA | hB
        · exact absurd h1 hA
        · exact le_of_not_lt hB
      have hxR : |(x:ℝ) - center size| ≤ rectRadius size := h.1
      linarith
    · norm_num
    · have hxA : |(x:ℝ) - center size| - (rectRadius size - corner_r size) ≤ 0 :=
        le_of_not_lt h1
      have hyR : |(y:ℝ) - center size| ≤ rectRadius size := h.2
      linarith
    · norm_num

/-- A pixel more than 1 unit inside the mask boundary is inside the clip
and gets alpha 255. -/
theorem alpha_deep (size x y : ℕ) (h : specSignedDist size x y < -1) :
    inClip size x y ∧ alphaOf size x y = 255 := by
  have hC : (0:ℝ) ≤ corner_r size := by
    unfold corner_r
    positivity
  unfold specSignedDist at h
  dsimp only at h
  by_cases hxy : |(x:ℝ) - center size| - (rectRadius size - corner_r size) > 0
      ∧ |(y:ℝ) - center size| - (rectRadius size - corner_r size) > 0
  · rw [if_pos hxy] at h
    have h0 : (0:ℝ) ≤ (|(x:ℝ) - center size| - (rectRadius size - corner_r size)) ^ 2
        + (|(y:ℝ) - center size| - (rectRadius size - corner_r size)) ^ 2 := by
      positivity
    have hs0 : (0:ℝ) ≤ Real.sqrt
        ((|(x:ℝ) - center size| - (rectRadius size - corner_r size)) ^ 2
          + (|(y:ℝ) - center size| - (rectRadius size - corner_r size)) ^ 2) :=
      Real.sqrt_nonneg _
    have hsq : Real.sqrt
        ((|(x:ℝ) - center size| - (rectRadius size - corner_r size)) ^ 2
          + (|(y:ℝ) - center size| - (rectRadius size - corner_r size)) ^ 2) ^ 2
        = (|(x:ℝ) - center size| - (rectRadius size - corner_r size)) ^ 2
          + (|(y:ℝ) - center size| - (rectRadius size - corner_r size)) ^ 2 :=
      Real.sq_sqrt h0
    have hclip : inClip size x y := by
      unfold inClip in_rounded_rect
      rw [if_neg (by push_neg; exact ⟨hxy.1, hxy.2⟩)]
      nlinarith
    refine ⟨hclip, ?_⟩
    have hED : edgeDist size x y < -1 := by
      unfold edgeDist
      dsimp only
      rw [if_pos hxy]
      rw [show (|(x:ℝ) - center size| - (rectRadius size - corner_r size))
            * (|(x:ℝ) - center size| - (rectRadius size - corner_r size))
            + (|(y:ℝ) - center size| - (rectRadius size - corner_r size))
              * (|(y:ℝ) - center size| - (rectRadius size - corner_r size))
          = (|(x:ℝ) - center size| - (rectRadius size - corner_r size)) ^ 2
            + (|(y:ℝ) - center size| - (rectRadius size - corner_r size)) ^ 2 by ring]
      linarith
    unfold alphaOf
    rw [if_neg fun hab => absurd hab.1 (not_lt.mpr (le_of_lt hED))]
  · rw [if_neg hxy] at h
    have hX : |(x:ℝ) - center size| - rectRadius size < -1 :=
      lt_of_le_of_lt (le_max_left _ _) h
    have hY : |(y:ℝ) - center size| - rectRadius size < -1 :=
      lt_of_le_of_lt (le_max_right _ _) h
    have hclip : inClip size x y := by
      unfold inClip in_rounded_rect
      rw [if_pos (by
        rcases not_and_or.mp hxy with h1 | h1
        · exact Or.inl (le_of_not_lt h1)
        · exact Or.inr (le_of_not_lt h1))]
      constructor <;> linarith
    refine ⟨hclip, ?_⟩
    have hED : edgeDist size x y < -1 ∨ edgeDist size x y = 0 := by
      unfold edgeDist
      dsimp only
      rw [if_neg hxy]
      split_ifs with h1 h2 h3 h4
      · left; norm_num
      · exfalso
        apply h2
        have hyB : |(y:ℝ) - center size| - (rectRadius size - corner_r size) ≤ 0 := by
          rcases not_and_or.mp hxy with hA | hB
          · exact absurd h1 hA
          · exact le_of_not_lt hB
        linarith
      · left; norm_num
      · exfalso
        apply h4
        have hxA : |(x:ℝ) - center size| - (rectRadius size - corner_r size) ≤ 0 :=
          le_of_not_lt h1
        linarith
      · right; rfl
    rcases hED with hlt | heq
    · unfold alphaOf
      rw [if_neg fun hab => absurd hab.1 (not_lt.mpr (le_of_lt hlt))]
    · unfold alphaOf
      rw [heq]
      rw [if_pos ⟨by norm_num, le_refl (0:ℝ)⟩]
      rw [show (255:ℝ) * (1 + 0) = 255 by norm_num]
      exact pyInt_255

/-- The alpha channel is always a byte value. -/
theorem alphaOf_range (size x y : ℕ) :
    0 ≤ alphaOf size x y ∧ alphaOf size x y ≤ 255 := by
  unfold alphaOf
  split_ifs with hcond
  · have harg : (0:ℝ) < 255 * (1 + edgeDist size x y) := by
      have := hcond.1
      nlinarith
    have harg' : (255:ℝ) * (1 + edgeDist size x y) ≤ 255 := by
      have := hcond.2
      nlinarith
    unfold pyInt
    rw [if_pos (le_of_lt harg)]
    constructor
    · exact Int.floor_nonneg.mpr (le_of_lt harg)
    · calc ⌊255 * (1 + edgeDist size x y)⌋ ≤ ⌊(255:ℝ)⌋ := Int.floor_le_floor harg'
        _ = 255 := by norm_num
  · norm_num

theorem clamp255_range (v : ℤ) : 0 ≤ clamp255 v ∧ clamp255 v ≤ 255 := by
  unfold clamp255
  constructor
  · exact le_max_left 0 _
  · exact max_le (by norm_num) (min_le_left 255 v)

/-- Every entry of a pixel's 4-byte list is a byte value. -/
theorem pixelList_range (size x y : ℕ) :
    ∀ v ∈ pixelList size x y, 0 ≤ v ∧ v ≤ 255 := by
  intro v hv
  unfold pixelList at hv
  have hpix : ∀ w ∈ [(pixelRGBA size x y).1, (pixelRGBA size x y).2.1,
      (pixelRGBA size x y).2.2.1, (pixelRGBA size x y).2.2.2],
      0 ≤ w ∧ w ≤ 255 := by
    intro w hw
    by_cases hc : inClip size x y
    · unfold pixelRGBA at hw
      rw [if_pos hc] at hw
      simp only [List.mem_cons, List.not_mem_nil, or_false] at hw
      rcases hw with hw | hw | hw | hw <;> subst hw
      · exact clamp255_range _
      · exact clamp255_range _
      · exact clamp255_range _
      · exact alphaOf_range size x y
    · unfold pixelRGBA at hw
      rw [if_neg hc] at hw
      simp only [List.mem_cons, List.not_mem_nil, or_false] at hw
      rcases hw with hw | hw | hw | hw <;> subst hw <;> norm_num
  exact hpix v hv

/-- Every entry of `draw_icon(S)` is a byte value. -/
theorem draw_icon_range (size : ℕ) :
    ∀ v ∈ draw_icon size, 0 ≤ v ∧ v ≤ 255 := by
  intro v hv
  unfold draw_icon at hv
  rw [List.mem_flatMap] at hv
  obtain ⟨y, _, hv⟩ := hv
  rw [List.mem_flatMap] at hv
  obtain ⟨x, _, hv⟩ := hv
  exact pixelList_range size x y v hv

/-- `toBytes` succeeds on any list of byte values. -/
theorem toBytes_isSome (l : List ℤ) (h : ∀ v ∈ l, 0 ≤ v ∧ v ≤ 255) :
    (toBytes l).isSome := by
  unfold toBytes
  induction l with
  | nil => rfl
  | cons a tl ih =>
    rw [List.mapM_cons]
    have ha := h a (List.mem_cons_self a tl)
    rw [if_pos ⟨ha.1, by omega⟩]
    have htl := ih fun v hv => h v (List.mem_cons_of_mem a hv)
    cases hmm : tl.mapM fun v => if 0 ≤ v ∧ v < 256 then some v.toNat else none with
    | none =>
        rw [hmm] at htl
        simp at htl
    | some bs => simp [hmm]

/-- `toBytes` preserves length when it succeeds. -/
theorem toBytes_length (l : List ℤ) (bs : List ℕ) (h : toBytes l = some bs) :
    bs.length = l.length := by
  unfold toBytes at h
  induction l generalizing bs with
  | nil =>
    simp only [List.mapM_nil, pure, Option.some.injEq] at h
    subst h
    rfl
  | cons a tl ih =>
    rw [List.mapM_cons] at h
    cases hif : (if 0 ≤ a ∧ a < 256 then some a.toNat else none) with
    | none => rw [hif] at h; simp at h
    | some b =>
      rw [hif] at h
      cases hmm : tl.mapM fun v => if 0 ≤ v ∧ v < 256 then some v.toNat else none with
      | none => rw [hmm] at h; simp at h
      | some bs' =>
        rw [hmm] at h
        simp at h
        subst h
        simp [ih bs' hmm]

/-- The 16px buffer converts to bytes and has 1024 of them. -/
theorem icon16Bytes_length : icon16Bytes.length = 1024 := by
  unfold icon16Bytes
  have hsome := toBytes_isSome (draw_icon 16) (draw_icon_range 16)
  cases hbs : toBytes (draw_icon 16) with
  | none => rw [hbs] at hsome; simp at hsome
  | some bs =>
    simp only [Option.getD_some]
    rw [toBytes_length (draw_icon 16) bs hbs, draw_icon_length 16]

/-- Range of `atan2`: always in `(-π, π]`. -/
theorem atan2_range (y x : ℝ) : -π < atan2 y x ∧ atan2 y x ≤ π := by
  have hpi := Real.pi_pos
  unfold atan2
  split_ifs with h1 h2 h3 h4 h5
  · have := Real.arctan_lt_pi_div_two (y / x)
    have := Real.neg_pi_div_two_lt_arctan (y / x)
    constructor <;> linarith
  · have hyx : y / x ≤ 0 := div_nonpos_of_nonneg_of_nonpos h3 (le_of_lt h2)
    have hle : Real.arctan (y / x) ≤ 0 := by
      rw [← Real.arctan_zero]
      exact Real.arctan_strictMono.monotone hyx
    have := Real.neg_pi_div_two_lt_arctan (y / x)
    constructor <;> linarith
  · have hyx : 0 < y / x := div_pos_iff.mpr (Or.inr ⟨by linarith, h2⟩)
    have hgt : 0 < Real.arctan (y / x) := by
      rw [← Real.arctan_zero]
      exact Real.arctan_strictMono hyx
    have := Real.arctan_lt_pi_div_two (y / x)
    constructor <;> linarith
  · constructor <;> linarith
  · constructor <;> linarith
  · constructor <;> linarith

/-- The code's conditional wrap of an absolute angle difference is the
shortest angular distance, for differences within one full turn. -/
theorem wrapDiff_eq_angularDist (a b : ℝ) (h : |a - b| ≤ 2 * π) :
    wrapDiff |a - b| = angularDist a b := by
  have h0 : 0 ≤ |a - b| := abs_nonneg _
  unfold wrapDiff angularDist
  rcases le_or_lt (|a - b|) π with hle | hgt
  · rw [if_neg (not_lt.mpr hle), min_eq_left (by linarith)]
  · rw [if_pos hgt, min_eq_right (by linarith)]

/-- Pixel angles differ from the indicator angle by less than a turn. -/
theorem pixelAngle_indicator_bound (size x y : ℕ) :
    |pixelAngle size x y - indicator_angle| ≤ 2 * π := by
  have hpi := Real.pi_pos
  have hr := atan2_range ((y : ℝ) - knob_cy size) ((x : ℝ) - knob_cx size)
  unfold pixelAngle
  unfold indicator_angle
  rw [abs_le]
  constructor <;> nlinarith [hr.1, hr.2]

/-- `pyMod` fixes values already in `[0, b)`. -/
theorem pyMod_small (a b : ℝ) (h0 : 0 ≤ a) (h1 : a < b) : pyMod a b = a := by
  have hb : 0 < b := lt_of_le_of_lt h0 h1
  unfold pyMod
  have hfl : ⌊a / b⌋ = 0 := by
    rw [Int.floor_eq_zero_iff]
    exact Set.mem_Ico.mpr ⟨div_nonneg h0 hb.le, (div_lt_one hb).mpr h1⟩
  rw [hfl]
  simp

/-- `pyMod` subtracts one period from values in `[b, 2b)`. -/
theorem pyMod_once (a b : ℝ) (hb : 0 < b) (h0 : b ≤ a) (h1 : a < 2 * b) :
    pyMod a b = a - b := by
  unfold pyMod
  have hfl : ⌊a / b⌋ = 1 := by
    rw [Int.floor_eq_iff]
    constructor
    · push_cast
      exact (one_le_div hb).mpr h0
    · push_cast
      rw [div_lt_iff hb]
      linarith
  rw [hfl]
  ring

theorem pixelD_nonneg (size x y : ℕ) : 0 ≤ pixelD size x y := by
  unfold pixelD dist
  exact Real.sqrt_nonneg _

/-- The pixel `(8, 12)` of the 16px render lies straight below the knob
center, at angle `π/2`. -/
theorem pixelAngle_16_8_12 : pixelAngle 16 8 12 = π / 2 := by
  unfold pixelAngle knob_cx knob_cy center atan2
  push_cast
  norm_num

theorem normAngle_16_8_12 : normAngle 16 8 12 = π / 2 := by
  have hpi := Real.pi_pos
  unfold normAngle
  rw [pixelAngle_16_8_12]
  exact pyMod_small _ _ (by linarith) (by linarith)

/-- The pixel `(8, 8)` of the 16px render lies inside the knob body. -/
theorem pixelD_16_8_8 : pixelD 16 8 8 ≤ knob_r 16 := by
  unfold pixelD dist knob_cx knob_cy center knob_r
  push_cast
  have harg : ((8:ℝ) - 16 / 2) ^ 2 + (8 - (16 / 2 + 16 * 0.02)) ^ 2 = 0.1024 := by
    norm_num
  rw [harg]
  have h4 : (16:ℝ) * 0.25 = 4 := by norm_num
  rw [h4]
  calc Real.sqrt 0.1024 ≤ Real.sqrt 16 := Real.sqrt_le_sqrt (by norm_num)
    _ = 4 := by
        rw [show (16:ℝ) = 4 ^ 2 by norm_num]
        exact Real.sqrt_sq (by norm_num)

/-- `draw_icon(16)` puts pixel `(0,0)` outside the rounded-rect mask. -/
theorem notClip16 : ¬ inClip 16 0 0 := by
  have h8 : |((0:ℕ):ℝ) - center 16| = 8 := by
    unfold center
    push_cast
    rw [show (0:ℝ) - 16 / 2 = -8 by norm_num, abs_neg, abs_of_nonneg (by norm_num)]
  unfold inClip in_rounded_rect
  rw [h8]
  intro h
  rw [if_neg (by
    unfold rectRadius corner_r
    push_cast
    push_neg
    norm_num)] at h
  unfold rectRadius corner_r at h
  push_cast at h
  norm_num at h

/-! ### The claims -/

/-- C1: Round-trip of the PNG encoder: for every width `W ≥ 1`, height
`H ≥ 1`, and RGBA buffer `P` of exactly `W*H*4` byte values, decoding the
byte sequence returned by `create_png(W, H, P)` with a standard PNG
decoder yields exactly `P`.  The zlib pair is abstract, assumed only to
round-trip on the encoded stream; dimensions are assumed addressable by
the PNG 4-byte fields, as `struct.pack(">I", ...)` requires. -/
theorem C1_png_round_trip (compress decompress : List ℕ → List ℕ)
    (w h : ℕ) (pixels : List ℕ)
    (hw1 : 1 ≤ w) (hh1 : 1 ≤ h)
    (hw : w < 4294967296) (hh : h < 4294967296)
    (hlen : pixels.length = w * h * 4)
    (hbytes : ∀ b ∈ pixels, b < 256)
    (hc : (compress (rawScanlines w h pixels)).length < 4294967296)
    (hinv : decompress (compress (rawScanlines w h pixels))
      = rawScanlines w h pixels) :
    png_decode decompress (create_png compress w h pixels) = some pixels :=
  png_decode_create_png compress decompress w h pixels hw hh hlen hc hinv

/-- Witness for C1 at the degenerate 1x1 buffer, with the identity
compressor. -/
theorem C1_png_round_trip_witness :
    png_decode (fun l => l) (create_png (fun l => l) 1 1 [1, 2, 3, 4])
      = some [1, 2, 3, 4] :=
  C1_png_round_trip (fun l => l) (fun l => l) 1 1 [1, 2, 3, 4]
    (by norm_num) (by norm_num) (by norm_num) (by norm_num) (by decide)
    (by decide) (by decide) rfl

/-- C2: `draw_icon(S)` is a buffer of exactly `S*S*4` values; the alpha
byte is 0 for every pixel outside the rounded-rect clip mask and 255 for
every pixel whose signed distance to the mask boundary is below `-1`;
in particular `draw_icon(16)` has the pixel at `(0,0)` with alpha 0. -/
theorem C2_render_buffer (S x y : ℕ) (hx : x < S) (hy : y < S) :
    (draw_icon S).length = S * S * 4
    ∧ (¬ inClip S x y → (draw_icon S)[(y * S + x) * 4 + 3]? = some 0)
    ∧ (specSignedDist S x y < -1 →
        (draw_icon S)[(y * S + x) * 4 + 3]? = some 255)
    ∧ (draw_icon 16)[3]? = some 0 := by
  refine ⟨draw_icon_length S, ?_, ?_, ?_⟩
  · intro hclip
    rw [draw_icon_alpha S x y hx hy, pixelRGBA_alpha, if_neg hclip]
  · intro hdeep
    obtain ⟨hclip, halpha⟩ := alpha_deep S x y hdeep
    rw [draw_icon_alpha S x y hx hy, pixelRGBA_alpha, if_pos hclip, halpha]
  · have h00 := draw_icon_alpha 16 0 0 (by norm_num) (by norm_num)
    rw [show (0 * 16 + 0) * 4 + 3 = 3 from rfl] at h00
    rw [h00, pixelRGBA_alpha, if_neg notClip16]

/-- Witness for C2 at size 16 and the corner pixel `(0,0)`. -/
theorem C2_render_buffer_witness :
    (draw_icon 16).length = 16 * 16 * 4
    ∧ ¬ inClip 16 0 0
    ∧ (draw_icon 16)[(0 * 16 + 0) * 4 + 3]? = some 0 := by
  have h := C2_render_buffer 16 0 0 (by norm_num) (by norm_num)
  exact ⟨h.1, notClip16, h.2.1 notClip16⟩

/-- C3: `create_png` output is the 8-byte signature, an IHDR chunk
declaring bit depth 8, color type 6, no interlacing, exactly one IDAT
chunk holding the compressed per-row zero-filter-byte stream, and an IEND
chunk; every chunk is framed as big-endian length, type tag, data, and
CRC-32 over type tag plus data.  In particular `create_png(16, 16,
draw_icon(16))` begins with the signature and has exactly one IDAT. -/
theorem C3_png_structure (compress : List ℕ → List ℕ) (w h : ℕ)
    (pixels : List ℕ)
    (hlen : pixels.length = w * h * 4)
    (hc : (compress (rawScanlines w h pixels)).length < 4294967296)
    (hc16 : (compress (rawScanlines 16 16 icon16Bytes)).length < 4294967296) :
    create_png compress w h pixels
      = pngSignature ++ make_chunk typeIHDR (ihdrData w h)
        ++ make_chunk typeIDAT (compress (rawScanlines w h pixels))
        ++ make_chunk typeIEND []
    ∧ ihdrData w h = be32 w ++ be32 h ++ [8, 6, 0, 0, 0]
    ∧ (∀ t d, make_chunk t d = be32 d.length ++ t ++ d ++ be32 (crc32 (t ++ d)))
    ∧ rawScanlines w h pixels
        = (List.range h).flatMap
            (fun y => 0 :: (pixels.drop (4 * w * y)).take (4 * w))
    ∧ idatChunkCount ((create_png compress w h pixels).drop 8) = some 1
    ∧ (create_png compress 16 16 icon16Bytes).take 8 = pngSignature
    ∧ idatChunkCount ((create_png compress 16 16 icon16Bytes).drop 8) = some 1 := by
  refine ⟨rfl, rfl, ?_, rawScanlines_rows w h pixels hlen,
    create_png_one_idat compress w h pixels hc,
    create_png_take8 compress 16 16 icon16Bytes,
    create_png_one_idat compress 16 16 icon16Bytes hc16⟩
  intro t d
  unfold make_chunk
  simp [List.append_assoc]

/-- Witness for C3 with the identity compressor, including the 16px
buffer produced by the rasterizer. -/
theorem C3_png_structure_witness :
    rawScanlines 1 1 [9, 9, 9, 9]
      = (List.range 1).flatMap
          (fun y => 0 :: (([9, 9, 9, 9] : List ℕ).drop (4 * 1 * y)).take (4 * 1))
    ∧ (create_png (fun l => l) 16 16 icon16Bytes).take 8 = pngSignature
    ∧ idatChunkCount ((create_png (fun l => l) 16 16 icon16Bytes).drop 8)
        = some 1 := by
  have h16 : ((fun l : List ℕ => l) (rawScanlines 16 16 icon16Bytes)).length
      < 4294967296 := by
    show (rawScanlines 16 16 icon16Bytes).length < 4294967296
    rw [rawScanlines_length, icon16Bytes_length]
    norm_num
  have h := C3_png_structure (fun l => l) 1 1 [9, 9, 9, 9] (by decide)
    (by decide) h16
  exact ⟨h.2.2.2.1, h.2.2.2.2.2.1, h.2.2.2.2.2.2⟩

/-- C4: dead-zone invariant: a pixel whose normalized angle lies strictly
inside `(0.38π, 0.62π)` is never recolored by the tick rule, at any
size. -/
theorem C4_dead_zone (S x y : ℕ)
    (h1 : 0.38 * π < normAngle S x y) (h2 : normAngle S x y < 0.62 * π) :
    (∀ c, tickStage S x y c = c)
    ∧ ¬ (inTickRing S x y ∧ ¬ inDeadZone S x y) := by
  have hdz : inDeadZone S x y := by
    unfold inDeadZone dead_start dead_end
    constructor <;> linarith
  refine ⟨?_, fun hcon => hcon.2 hdz⟩
  intro c
  unfold tickStage
  rw [if_neg fun hcon => hcon.2 hdz]

/-- Witness for C4: the pixel `(8, 12)` of the 16px render sits at
normalized angle `π/2`, inside the dead zone. -/
theorem C4_dead_zone_witness :
    0.38 * π < normAngle 16 8 12
    ∧ normAngle 16 8 12 < 0.62 * π
    ∧ (∀ c, tickStage 16 8 12 c = c) := by
  have hpi := Real.pi_pos
  have ha : 0.38 * π < normAngle 16 8 12 := by
    rw [normAngle_16_8_12]
    linarith
  have hb : normAngle 16 8 12 < 0.62 * π := by
    rw [normAngle_16_8_12]
    linarith
  exact ⟨ha, hb, (C4_dead_zone 16 8 12 ha hb).1⟩

/-- C5: the rasterizer generates exactly 11 tick angles, evenly spaced
from the dead-zone end wrapping through `2π` back to the dead-zone start;
the first 8 (by generation order) are accent-colored and the remaining 3
neutral gray, for every canvas size (the tick angles and colors do not
depend on the size). -/
theorem C5_tick_split :
    num_ticks = 11
    ∧ (∀ i, i + 1 < num_ticks →
        tickAngleRaw (i + 1) - tickAngleRaw i = arc_range / 10)
    ∧ tickAngle 0 = dead_end
    ∧ tickAngle 10 = dead_start
    ∧ (∀ i < num_ticks, tickColorOf i = accent ↔ i < 8)
    ∧ ((List.range num_ticks).filter fun i => decide (i < 8)).length = 8
    ∧ ((List.range num_ticks).filter fun i => decide (¬ i < 8)).length = 3
    ∧ accent ≠ tick_color := by
  have hpi := Real.pi_pos
  refine ⟨rfl, ?_, ?_, ?_, ?_, by decide, by decide, by decide⟩
  · intro i _
    unfold tickAngleRaw num_ticks
    push_cast
    ring
  · unfold tickAngle tickAngleRaw
    rw [show arc_start + arc_range * (0:ℕ) / ((num_ticks:ℝ) - 1) = arc_start by
      push_cast; ring]
    unfold arc_start
    refine pyMod_small _ _ ?_ ?_
    · unfold dead_end
      linarith
    · unfold dead_end
      linarith
  · unfold tickAngle tickAngleRaw num_ticks arc_start arc_range dead_start dead_end
    push_cast
    rw [show π * 0.62 + (2 * π - (π * 0.62 - π * 0.38)) * (10:ℝ) / (11 - 1)
        = 2.38 * π by ring]
    rw [pyMod_once (2.38 * π) (2 * π) (by linarith) (by linarith) (by linarith)]
    ring
  · intro i _
    unfold tickColorOf
    split_ifs with h8
    · simp [h8]
    · constructor
      · intro heq
        exact absurd heq (by decide)
      · intro h
        exact absurd h h8

/-- Witness for C5 at tick index 0. -/
theorem C5_tick_split_witness :
    (0 + 1 < num_ticks
      ∧ tickAngleRaw (0 + 1) - tickAngleRaw 0 = arc_range / 10)
    ∧ (0 < num_ticks ∧ (tickColorOf 0 = accent ↔ 0 < 8)) := by
  have h := C5_tick_split
  exact ⟨⟨by decide, h.2.1 0 (by decide)⟩, by decide, h.2.2.2.2.1 0 (by decide)⟩

/-- C6: within the knob body, the indicator rule paints the accent color
exactly when the pixel's shortest angular distance to the fixed angle
`-0.33π` is below `atan2(lineWidth, d)` (with `d` the pixel's radial
distance, making the wedge's screen-space width constant) and `d` lies
strictly between `0.3` and `0.9` of the body radius `0.25*size`. -/
theorem C6_indicator_wedge (S x y : ℕ) (hbody : pixelD S x y ≤ knob_r S) :
    (∀ c, knobStage S x y c
      = if indicatorHit S x y then accent
        else lerpColor knob_light knob_dark (pixelD S x y / knob_r S * 0.7))
    ∧ (indicatorHit S x y
        ↔ angularDist (pixelAngle S x y) (-(π * 0.33))
            < atan2 (0.025 * (S:ℝ)) (pixelD S x y)
          ∧ 0.3 * (0.25 * (S:ℝ)) < pixelD S x y
          ∧ pixelD S x y < 0.9 * (0.25 * (S:ℝ))) := by
  have hS0 : (0:ℝ) ≤ (S:ℝ) := Nat.cast_nonneg S
  have hwrap : wrapDiff |pixelAngle S x y - indicator_angle|
      = angularDist (pixelAngle S x y) indicator_angle :=
    wrapDiff_eq_angularDist _ _ (pixelAngle_indicator_bound S x y)
  have hind : angularDist (pixelAngle S x y) (-(π * 0.33))
      = angularDist (pixelAngle S x y) indicator_angle := by
    unfold indicator_angle
    rw [neg_mul]
  have hswap : (0.025 * (S:ℝ)) = (S:ℝ) * 0.025 := by ring
  constructor
  · intro c
    unfold knobStage
    dsimp only
    rw [if_neg fun hcon => absurd hcon.2 (not_lt.mpr hbody)]
    rw [if_pos hbody]
  · constructor
    · rintro ⟨hw, hlo, hhi⟩
      have hpos : (0:ℝ) ≤ (S:ℝ) * 0.25 * 0.3 := by positivity
      have hdpos : 0 < pixelD S x y := by
        unfold knob_r at hlo
        linarith
      unfold indicatorThreshold at hw
      rw [if_pos hdpos] at hw
      refine ⟨?_, ?_, ?_⟩
      · rw [hind, ← hwrap, hswap]
        exact hw
      · unfold knob_r at hlo
        linarith
      · unfold knob_r at hhi
        linarith
    · rintro ⟨hw, hlo, hhi⟩
      have hpos : (0:ℝ) ≤ 0.3 * (0.25 * (S:ℝ)) := by positivity
      have hdpos : 0 < pixelD S x y := by linarith
      refine ⟨?_, ?_, ?_⟩
      · unfold indicatorThreshold
        rw [if_pos hdpos, hwrap, ← hind, ← hswap]
        exact hw
      · unfold knob_r
        linarith
      · unfold knob_r
        linarith

/-- Witness for C6 at the knob-body pixel `(8, 8)` of the 16px render. -/
theorem C6_indicator_wedge_witness :
    pixelD 16 8 8 ≤ knob_r 16
    ∧ (indicatorHit 16 8 8
        ↔ angularDist (pixelAngle 16 8 8) (-(π * 0.33))
            < atan2 (0.025 * (16:ℝ)) (pixelD 16 8 8)
          ∧ 0.3 * (0.25 * (16:ℝ)) < pixelD 16 8 8
          ∧ pixelD 16 8 8 < 0.9 * (0.25 * (16:ℝ))) :=
  ⟨pixelD_16_8_8, (C6_indicator_wedge 16 8 8 pixelD_16_8_8).2⟩

/-- C7: driver dispatch: the variant whose pixel size equals the master
size 1024 is skipped (its file is the master render, already written
under that variant's filename); variants with `512 ≤ px < 1024` are
rasterized fresh at exactly `px`; variants with `px < 512` are produced
solely by the external `sips` resampler against the master file. -/
theorem C7_driver_dispatch :
    ∀ v ∈ ICON_SIZES,
      (v.1 * v.2.1 = 1024 →
        dispatch (v.1 * v.2.1) = DriverAction.reuseMaster ∧ v.2.2 = masterFilename)
      ∧ (512 ≤ v.1 * v.2.1 → v.1 * v.2.1 < 1024 →
          dispatch (v.1 * v.2.1) = DriverAction.rasterize (v.1 * v.2.1))
      ∧ (v.1 * v.2.1 < 512 →
          dispatch (v.1 * v.2.1) = DriverAction.sipsResize (v.1 * v.2.1)) := by
  decide

/-- Witness for C7 at the `512x512@2x` variant (the master size). -/
theorem C7_driver_dispatch_witness :
    ((512, 2, "icon_512x512@2x.png") ∈ ICON_SIZES)
    ∧ dispatch (512 * 2) = DriverAction.reuseMaster
    ∧ "icon_512x512@2x.png" = masterFilename := by
  have h := (C7_driver_dispatch (512, 2, "icon_512x512@2x.png") (by decide)).1
    (by norm_num)
  exact ⟨by decide, h.1, h.2⟩

/-- C8: the manifest has exactly one image entry per size variant, in
generation order, carrying the variant's filename, idiom `"mac"`, scale
`"{scale}x"` and size `"{base}x{base}"`, and the info record
`author = "xcode"`, `version = 1`. -/
theorem C8_manifest :
    contentsImages.length = ICON_SIZES.length
    ∧ (∀ p ∈ ICON_SIZES.zip contentsImages,
        p.2.filename = p.1.2.2
          ∧ p.2.idiom = "mac"
          ∧ p.2.scale = toString p.1.2.1 ++ "x"
          ∧ p.2.size = toString p.1.1 ++ "x" ++ toString p.1.1)
    ∧ contentsInfo = ⟨"xcode", 1⟩ := by
  refine ⟨rfl, ?_, rfl⟩
  decide

/-- Witness for C8 at the first variant. -/
theorem C8_manifest_witness :
    (((16, 1, "icon_16x16.png"),
        ({ filename := "icon_16x16.png", idiom := "mac",
           scale := "1x", size := "16x16" } : ManifestEntry))
      ∈ ICON_SIZES.zip contentsImages)
    ∧ ({ filename := "icon_16x16.png", idiom := "mac",
         scale := "1x", size := "16x16" } : ManifestEntry).filename
        = (16, 1, "icon_16x16.png").2.2 := by
  refine ⟨by decide, ?_⟩
  exact (C8_manifest.2.1 ((16, 1, "icon_16x16.png"),
    { filename := "icon_16x16.png", idiom := "mac",
      scale := "1x", size := "16x16" }) (by decide)).1

/-- C9: every entry of `draw_icon(S)` is an integer in `[0, 255]` — the
color channels by the explicit clamp, the alpha channel because the
computed edge distance is never positive inside the clip — so the
`bytes(...)` conversion inside `create_png` always succeeds on a
rasterized buffer. -/
theorem C9_byte_range (S : ℕ) :
    (∀ v ∈ draw_icon S, 0 ≤ v ∧ v ≤ 255)
    ∧ (toBytes (draw_icon S)).isSome
    ∧ (∀ x y, inClip S x y → edgeDist S x y ≤ 0) :=
  ⟨draw_icon_range S, toBytes_isSome _ (draw_icon_range S),
    fun x y h => edgeDist_nonpos S x y h⟩

/-- Witness for C9: the alpha byte of pixel `(0,0)` at size 16 is a
member of the buffer and is in range. -/
theorem C9_byte_range_witness :
    (0:ℤ) ∈ draw_icon 16 ∧ (0 ≤ (0:ℤ) ∧ (0:ℤ) ≤ 255) := by
  have h3 : (draw_icon 16)[3]? = some 0 := by
    have h00 := draw_icon_alpha 16 0 0 (by norm_num) (by norm_num)
    rw [show (0 * 16 + 0) * 4 + 3 = 3 from rfl] at h00
    rw [h00, pixelRGBA_alpha, if_neg notClip16]
  have hmem : (0:ℤ) ∈ draw_icon 16 := by
    have := List.getElem?_mem h3
    exact this
  exact ⟨hmem, (C9_byte_range 16).1 0 hmem⟩

/-- C10: `create_png` performs no length check: on a buffer of byte
values shorter than `width*height*4` it still returns the fully framed
byte sequence, but the filtered stream inside IDAT is shorter than
`height*(1 + 4*width)` — a structurally malformed PNG rather than an
error.  (In the model, as in Python, the truncating slices make the
function total.) -/
theorem C10_short_buffer (compress : List ℕ → List ℕ) (w h : ℕ)
    (pixels : List ℕ) (hshort : pixels.length < w * h * 4) :
    create_png compress w h pixels
      = pngSignature ++ make_chunk typeIHDR (ihdrData w h)
        ++ make_chunk typeIDAT (compress (rawScanlines w h pixels))
        ++ make_chunk typeIEND []
    ∧ (rawScanlines w h pixels).length < h * (1 + 4 * w) := by
  refine ⟨rfl, ?_⟩
  rw [rawScanlines_length]
  have e2 : w * h * 4 = 4 * w * h := by ring
  have e3 : h * (1 + 4 * w) = h + 4 * w * h := by ring
  omega

/-- Witness for C10: a 1x1 image from a 2-byte buffer. -/
theorem C10_short_buffer_witness :
    ([7, 7] : List ℕ).length < 1 * 1 * 4
    ∧ (rawScanlines 1 1 [7, 7]).length < 1 * (1 + 4 * 1) := by
  have h := C10_short_buffer (fun l => l) 1 1 [7, 7] (by norm_num)
  exact ⟨by norm_num, h.2⟩

end FocusriteIcon

